import Mathlib

/-!
Shallow embedding of the unrolled linked list of `src/unrolled.rs` (crate
`im-lists`), specialised to the value level: reference-counted pointers are
modelled by the values they point to (cloning a pointer clones no data, so a
`P::Pointer<X>` is observationally an `X`), a Rust `Vec<T>` is a `List α`
(`push` appends at the end, `pop` removes the last entry, `truncate` is
`take`), and the singly linked `next` chain of cells is flattened into a Lean
list of cells, head cell first.  `usize` arithmetic is `Nat`; the two places
where the source can underflow a `usize` (`cell.index -= 1` in `pop_front`
and `index -= node.elements.len()` in `get`) are modelled explicitly by an
`Option`, `none` standing for the debug-mode panic.
-/

namespace Unrolled

/-- One `UnrolledCell<T, P, N, G>`: `index` is the cursor (count of live
elements, stored at the front of `elements`, in reverse logical order),
`elements` the backing vector, `size` the capacity ceiling.  The `next`
pointer is encoded positionally: a whole list is a Lean list of cells. -/
structure UnrolledCell (α : Type) where
  index : Nat
  elements : List α
  size : Nat
deriving Repr, DecidableEq

/-- An `UnrolledList<T, P, N, G>` as the chain of its cells, head first.
In the Rust source the chain always has at least one cell; `[]` never arises
from the operations below when they are applied to well-formed inputs. -/
abbrev UnrolledList (α : Type) := List (UnrolledCell α)

/-- `UnrolledList::new()`: a single cell with no elements, cursor 0 and
capacity ceiling `N`. -/
def new (α : Type) (N : Nat) : UnrolledList α := [⟨0, [], N⟩]

/-- `UnrolledCell::GROWTH_RATE`: `if G == 0 { 1 } else { G }`. -/
def growthRate (G : Nat) : Nat := if G = 0 then 1 else G

/-- The borrowed iterator `iter` (also `(&l).into_iter()`), which flat-maps
each cell to `elements[0..index].iter().rev()`, collected into a list. -/
def toList : UnrolledList α → List α
  | [] => []
  | c :: rest => (c.elements.take c.index).reverse ++ toList rest

/-- `UnrolledList::len`: the sum of the cursors along the chain. -/
def len : UnrolledList α → Nat
  | [] => 0
  | c :: rest => c.index + len rest

/-- `UnrolledList::is_empty`: `self.0.elements.is_empty()` — it inspects the
head cell's element vector only, not the cursor sum. -/
def isEmpty : UnrolledList α → Bool
  | [] => true
  | c :: _ => c.elements.isEmpty

/-- `UnrolledCell::car` (as cloned by `UnrolledList::car`): slot `index - 1`
of `elements`, or none when the cursor is 0. -/
def car : UnrolledList α → Option α
  | [] => none
  | c :: _ => if c.index = 0 then none else c.elements[c.index - 1]?

/-- `UnrolledCell::cdr`: with cursor above 1, a fresh cell sharing the same
elements with the cursor decremented (`advance_cursor`); otherwise the
`next` chain, which is `none` when absent. -/
def cdr : UnrolledList α → Option (UnrolledList α)
  | [] => none
  | c :: rest =>
    if 1 < c.index then some ({ c with index := c.index - 1 } :: rest)
    else match rest with
      | [] => none
      | _ => some rest

/-- `UnrolledCell::cons` (used by the functional `UnrolledList::cons`): if
the head vector is over `size - 1` long, a new head cell `[value]` with
ceiling `size * GROWTH_RATE`; otherwise push `value` onto the head vector
and bump the cursor.  Note: unlike `cons_mut` it performs no truncation of
hidden slots beyond the cursor. -/
def cons (G : Nat) (value : α) : UnrolledList α → UnrolledList α
  | [] => []
  | c :: rest =>
    if c.size - 1 < c.elements.length then
      ⟨1, [value], c.size * growthRate G⟩ :: c :: rest
    else
      ⟨c.index + 1, c.elements ++ [value], c.size⟩ :: rest

/-- `UnrolledList::cons_mut` (and its alias `push_front`): first truncate the
head vector to the cursor when the cursor lags behind it, then either spill
into a new head cell (vector over `size - 1` long) or push in place. -/
def consMut (G : Nat) (value : α) : UnrolledList α → UnrolledList α
  | [] => []
  | c :: rest =>
    let els := if c.index < c.elements.length then c.elements.take c.index
               else c.elements
    if c.size - 1 < els.length then
      ⟨1, [value], c.size * growthRate G⟩ :: ⟨c.index, els, c.size⟩ :: rest
    else
      ⟨c.index + 1, els ++ [value], c.size⟩ :: rest

/-- `UnrolledList::pop_front`: pop the last slot of the head vector; when the
pop yielded a value, `cell.index -= 1` — which underflows (debug-mode panic,
modelled as `none`) when the cursor is already 0 while the vector is not
empty; when the cursor reaches 0 and a `next` cell exists, the head is
replaced by it. -/
def popFront : UnrolledList α → Option (Option α × UnrolledList α)
  | [] => some (none, [])
  | c :: rest =>
    match c.elements.getLast? with
    | some v =>
      if c.index = 0 then none
      else
        if c.index - 1 = 0 ∧ rest.isEmpty = false then some (some v, rest)
        else some (some v, ⟨c.index - 1, c.elements.dropLast, c.size⟩ :: rest)
    | none =>
      if c.index = 0 ∧ rest.isEmpty = false then some (none, rest)
      else some (none, c :: rest)

/-- `UnrolledList::get`: inside a cell, an index below the cursor reads slot
`index - i - 1`; otherwise the whole `elements.len()` (not the cursor) is
subtracted before moving to `next` — a `usize` subtraction that underflows
(debug-mode panic, modelled as the outer `none`) whenever `i` lies strictly
between the cursor and the vector length.  `some none` is the in-bounds
`None` sentinel returned at the end of the chain. -/
def get : UnrolledList α → Nat → Option (Option α)
  | [], _ => some none
  | c :: rest, i =>
    if i < c.index then some (c.elements[c.index - i - 1]?)
    else if i < c.elements.length then none
    else get rest (i - c.elements.length)

/-- `UnrolledList::reverse`: every cell's vector is truncated to its cursor
(`take` already caps, matching the guarded `truncate`) and reversed in
place, and the chain is relinked in reverse order; cursors are untouched. -/
def reverse (l : UnrolledList α) : UnrolledList α :=
  (l.map fun c => ⟨c.index, (c.elements.take c.index).reverse, c.size⟩).reverse

/-- One step of the `FromIterator<UnrolledList>` rebuild loop, processing
cell `c` against the already rebuilt chain `acc`: when `c`'s vector and the
first rebuilt cell's vector together fit under the latter's `size`, both are
truncated to their cursors and merged (the merged vector lives in `c`'s
cell, which keeps `c.size` and takes over the rest of the chain); otherwise
`c` is simply linked in front. -/
def rebuildStep (c : UnrolledCell α) (acc : UnrolledList α) : UnrolledList α :=
  match acc with
  | [] => [c]
  | r :: rest =>
    if c.elements.length + r.elements.length ≤ r.size then
      ⟨(r.elements.take r.index ++ c.elements.take c.index).length,
        r.elements.take r.index ++ c.elements.take c.index, c.size⟩ :: rest
    else c :: r :: rest

/-- `FromIterator<UnrolledList>`: fold the rebuild step from the tail
forward; an empty collection yields `new`. -/
def rebuild (α : Type) (N : Nat) (l : UnrolledList α) : UnrolledList α :=
  match l.foldr rebuildStep [] with
  | [] => new α N
  | acc => acc

/-- `UnrolledList::append` (also `append_mut`, which delegates to it): if the
right list's head vector is empty, the left list unchanged; otherwise the
two chains are concatenated and rebuilt with coalescing. -/
def append (N : Nat) (a b : UnrolledList α) : UnrolledList α :=
  match b with
  | [] => a
  | c :: _ => if c.elements.isEmpty then a else rebuild α N (a ++ b)

/-- The sizing loop of `ExponentialChunks::new`: starting from
`size = running_sum = N`, repeat `size *= G; running_sum += size` while
`running_sum < length`, returning the final size and `running_sum - size`.
The first argument is fuel: `length` iterations always suffice, because with
`N, G ≥ 1` the running sum strictly increases. -/
def sizeLoop (G length : Nat) : Nat → Nat → Nat → Nat × Nat
  | 0, size, rs => (size, rs - size)
  | fuel+1, size, rs =>
    if rs < length then sizeLoop G length fuel (size * G) (rs + size * G)
    else (size, rs - size)

/-- The chunk size chosen by one `ExponentialChunks::next()` call:
`length - running_sum` while `length > running_sum`, else `size`. -/
def chunkSize (rs length size : Nat) : Nat :=
  if rs < length then length - rs else size

/-- The sequence of `(size, chunk)` pairs produced by `ExponentialChunks`:
take `chunkSize` elements, stop on an empty chunk, else emit the pair and
continue with `size / G`.  Fuel-based; `length + 1` calls always suffice,
every emitted chunk being nonempty. -/
def chunks (G rs : Nat) : Nat → List α → Nat → List (Nat × List α)
  | 0, _, _ => []
  | fuel+1, l, size =>
    if (l.take (chunkSize rs l.length size)).isEmpty then []
    else (size, l.take (chunkSize rs l.length size)) ::
      chunks G rs fuel (l.drop (chunkSize rs l.length size)) (size / G)

/-- The cell `from_vec` builds from one `(size, chunk)` pair: the chunk is
reversed into the element vector, the cursor is its full length. -/
def mkCell : Nat × List α → UnrolledCell α :=
  fun sc => ⟨sc.2.length, sc.2.reverse, sc.1⟩

/-- `from_vec` (also `FromIterator<T>` and `From<Vec<T>>`): chunk the vector
by `ExponentialChunks`, build one cell per chunk, link them in order; an
empty vector yields `new`. -/
def fromVec (N G : Nat) (v : List α) : UnrolledList α :=
  match (chunks G (sizeLoop G v.length v.length N N).2 (v.length + 1) v
      (sizeLoop G v.length v.length N N).1).map mkCell with
  | [] => new α N
  | l => l

/-- The action alphabet of the crate's own `operations_in_order_match`
property test (src/unrolled/proptests.rs). -/
inductive Action (α : Type) where
  | consA (v : α)
  | cdrA
  | appendA (v : List α)
  | pushBackA (v : α)
  | popFrontA
  | reverseA
deriving Repr

/-- One action applied to the list, exactly as `Action::act_on_list` does:
`Cons` is `cons_mut`, `Cdr` is `cdr().unwrap_or(new)`, `Append` is
`extend` = `append_mut` of a collected vector, `PushBack` is
`extend(once(v))`, `PopFront` keeps the new state (panic propagates as
`none`), `Reverse` is `reverse`. -/
def stepList (N G : Nat) : Action α → UnrolledList α → Option (UnrolledList α)
  | .consA v, l => some (consMut G v l)
  | .cdrA, l => some ((cdr l).getD (new α N))
  | .appendA v, l => some (append N l (fromVec N G v))
  | .pushBackA v, l => some (append N l (fromVec N G [v]))
  | .popFrontA, l => (popFront l).map Prod.snd
  | .reverseA, l => some (reverse l)

/-- The same action applied to the reference vector, as
`Action::act_on_vector` does (`remove(0)` guarded on the empty vector). -/
def stepVec : Action α → List α → List α
  | .consA v, l => v :: l
  | .cdrA, l => l.drop 1
  | .appendA v, l => l ++ v
  | .pushBackA v, l => l ++ [v]
  | .popFrontA, l => l.drop 1
  | .reverseA, l => l.reverse

/-- Run a sequence of actions on the list; `none` once any step panics. -/
def runList (N G : Nat) : UnrolledList α → List (Action α) → Option (UnrolledList α)
  | l, [] => some l
  | l, a :: rest =>
    match stepList N G a l with
    | none => none
    | some l2 => runList N G l2 rest

/-- Run a sequence of actions on the reference vector. -/
def runVec : List α → List (Action α) → List α
  | l, [] => l
  | l, a :: rest => runVec (stepVec a l) rest

/-- Geometric capacity sum `N + N·G + … + N·G^(k-1)`, the value of the
sizing loop's running sum; used only to state the chunking lemmas. -/
def geomSum (N G : Nat) : Nat → Nat
  | 0 => 0
  | k+1 => geomSum N G k + N * G ^ k

/-- Expected shape of the chunk stream after the head chunk: exactly `j`
further chunks of sizes `N·G^(j-1), …, N·G, N`; used only in proofs. -/
def tailChunks (N G : Nat) : Nat → List α → List (Nat × List α)
  | 0, _ => []
  | j+1, l => (N * G ^ j, l.take (N * G ^ j)) :: tailChunks N G j (l.drop (N * G ^ j))

/-- The size fields `[N·G^(j-1), …, N·G, N]`; used only in proofs. -/
def powList (N G : Nat) : Nat → List Nat
  | 0 => []
  | j+1 => N * G ^ j :: powList N G j

/-- Concatenation of the chunks of a chunk stream; used only in proofs. -/
def joinChunks : List (Nat × List α) → List α
  | [] => []
  | c :: rest => c.2 ++ joinChunks rest

end Unrolled

namespace Unrolled

/-! Basic lemmas about iteration, length and the rebuild fold. -/

theorem toList_chain_append (a b : UnrolledList α) :
    toList (a ++ b) = toList a ++ toList b := by
  induction a with
  | nil => rfl
  | cons c rest ih => simp [toList, ih]

theorem len_chain_append (a b : UnrolledList α) :
    len (a ++ b) = len a + len b := by
  induction a with
  | nil => simp [len]
  | cons c rest ih => simp [len, ih]; omega

theorem len_eq_length_toList (l : UnrolledList α)
    (h : ∀ c ∈ l, c.index ≤ c.elements.length) :
    len l = (toList l).length := by
  induction l with
  | nil => rfl
  | cons c rest ih =>
    have hc := h c (by simp)
    have hrest := fun x hx => h x (List.mem_cons_of_mem _ hx)
    simp [len, toList, ih hrest, List.length_take]
    omega

theorem toList_reverse (l : UnrolledList α) :
    toList (reverse l) = (toList l).reverse := by
  induction l with
  | nil => rfl
  | cons c rest ih =>
    have hc : toList [(⟨c.index, (c.elements.take c.index).reverse, c.size⟩ :
        UnrolledCell α)] = c.elements.take c.index := by
      have hle : ((c.elements.take c.index).reverse).length ≤ c.index := by
        simp [List.length_take]
      simp [toList, List.take_of_length_le hle]
    calc toList (reverse (c :: rest))
        = toList (reverse rest) ++ toList
            [(⟨c.index, (c.elements.take c.index).reverse, c.size⟩ :
              UnrolledCell α)] := by
          simp [reverse, toList_chain_append]
      _ = (toList rest).reverse ++ c.elements.take c.index := by rw [ih, hc]
      _ = (toList (c :: rest)).reverse := by simp [toList]

theorem toList_rebuildStep (c : UnrolledCell α) (acc : UnrolledList α) :
    toList (rebuildStep c acc) = toList (c :: acc) := by
  unfold rebuildStep
  match acc with
  | [] => rfl
  | r :: rest =>
    by_cases h : c.elements.length + r.elements.length ≤ r.size
    · simp only [h, if_true, toList]
      rw [List.take_length, List.reverse_append, List.append_assoc]
    · simp [h]

theorem toList_foldr_rebuild (l : UnrolledList α) :
    toList (l.foldr rebuildStep []) = toList l := by
  induction l with
  | nil => rfl
  | cons c rest ih =>
    rw [List.foldr_cons, toList_rebuildStep]
    simp [toList, ih]

theorem toList_rebuild (N : Nat) (l : UnrolledList α) :
    toList (rebuild α N l) = toList l := by
  unfold rebuild
  rcases h : l.foldr rebuildStep [] with _ | ⟨c, acc⟩
  · have := toList_foldr_rebuild l
    rw [h] at this
    simpa [new, toList] using this.symm
  · have := toList_foldr_rebuild l
    rw [h] at this
    simpa using this

theorem foldr_rebuild_cursor_len (l : UnrolledList α)
    (h : ∀ c ∈ l, c.index ≤ c.elements.length) :
    (∀ c ∈ l.foldr rebuildStep [], c.index ≤ c.elements.length) ∧
      len (l.foldr rebuildStep []) = len l := by
  induction l with
  | nil => exact ⟨by simp, rfl⟩
  | cons c rest ih =>
    have hc := h c (by simp)
    obtain ⟨ihb, ihl⟩ := ih (fun x hx => h x (List.mem_cons_of_mem _ hx))
    rw [List.foldr_cons]
    rcases hacc : rest.foldr rebuildStep [] with _ | ⟨r, acc2⟩
    · rw [hacc] at ihl
      refine ⟨by simpa [rebuildStep] using hc, ?_⟩
      simp [len, rebuildStep] at ihl ⊢
      omega
    · rw [hacc] at ihb ihl
      have hr : r.index ≤ r.elements.length := ihb r (by simp)
      by_cases hco : c.elements.length + r.elements.length ≤ r.size
      · simp only [rebuildStep, hco, if_true]
        constructor
        · intro x hx
          rcases List.mem_cons.mp hx with hx | hx
          · subst hx; simp
          · exact ihb x (List.mem_cons_of_mem _ hx)
        · simp [len, List.length_take] at ihl ⊢
          omega
      · simp only [rebuildStep, hco, if_false]
        refine ⟨?_, ?_⟩
        · intro x hx
          rcases List.mem_cons.mp hx with hx | hx
          · subst hx; exact hc
          · exact ihb x hx
        · simp [len] at ihl ⊢
          omega

theorem len_rebuild (N : Nat) (l : UnrolledList α)
    (h : ∀ c ∈ l, c.index ≤ c.elements.length) :
    len (rebuild α N l) = len l := by
  unfold rebuild
  obtain ⟨_, hlen⟩ := foldr_rebuild_cursor_len l h
  rcases hfold : l.foldr rebuildStep [] with _ | ⟨c, acc⟩
  · rw [hfold] at hlen
    simp [len] at hlen
    simp [new, len, hlen.symm]
  · rw [hfold] at hlen
    simpa using hlen

theorem rebuild_cursor_le (N : Nat) (l : UnrolledList α)
    (h : ∀ c ∈ l, c.index ≤ c.elements.length) :
    ∀ c ∈ rebuild α N l, c.index ≤ c.elements.length := by
  unfold rebuild
  obtain ⟨hb, _⟩ := foldr_rebuild_cursor_len l h
  rcases hfold : l.foldr rebuildStep [] with _ | ⟨c, acc⟩
  · simp [new]
  · rw [hfold] at hb
    simpa using hb

/-! The `from_vec` characterisation: the sizing loop reaches the first
geometric capacity sum covering the input, the head chunk is the remainder,
and the tail chunks follow the progression `N·G^(k-1), …, N·G, N`. -/

theorem one_le_mul_pow (N G : Nat) (hN : 1 ≤ N) (hG : 1 ≤ G) (k : Nat) :
    1 ≤ N * G ^ k :=
  Nat.one_le_iff_ne_zero.mpr (by positivity)

theorem geomSum_succ (N G k : Nat) :
    geomSum N G (k + 1) = geomSum N G k + N * G ^ k := rfl

theorem geomSum_lt (N G : Nat) (hN : 1 ≤ N) (hG : 1 ≤ G) (k : Nat) :
    geomSum N G k < geomSum N G (k + 1) := by
  have h1 := one_le_mul_pow N G hN hG k
  have h2 := geomSum_succ N G k
  omega

theorem sizeLoop_spec (N G length : Nat) (hN : 1 ≤ N) (hG : 1 ≤ G) :
    ∀ fuel j, length ≤ geomSum N G (j + 1) + fuel →
      ∃ k, j ≤ k ∧
        sizeLoop G length fuel (N * G ^ j) (geomSum N G (j + 1)) =
          (N * G ^ k, geomSum N G k) ∧
        length ≤ geomSum N G (k + 1) ∧ (j < k → geomSum N G k < length) := by
  intro fuel
  induction fuel with
  | zero =>
    intro j hle
    refine ⟨j, Nat.le_refl _, ?_, by omega, by omega⟩
    simp only [sizeLoop]
    have : geomSum N G (j + 1) - N * G ^ j = geomSum N G j := by
      simp [geomSum]
    rw [this]
  | succ fuel ih =>
    intro j hle
    by_cases hlt : geomSum N G (j + 1) < length
    · have hstep1 : N * G ^ j * G = N * G ^ (j + 1) := by
        rw [pow_succ, Nat.mul_assoc]
      have hstep2 : geomSum N G (j + 1) + N * G ^ (j + 1) = geomSum N G (j + 1 + 1) :=
        (geomSum_succ N G (j + 1)).symm
      have hfuel : length ≤ geomSum N G (j + 1 + 1) + fuel := by
        have h1 := one_le_mul_pow N G hN hG (j + 1)
        have h2 := geomSum_succ N G (j + 1)
        omega
      obtain ⟨k, hjk, heq, hub, hlb⟩ := ih (j + 1) hfuel
      refine ⟨k, by omega, ?_, hub, ?_⟩
      · simp only [sizeLoop, hlt, if_true]
        rw [hstep1, hstep2] at *
        exact heq
      · intro hjk2
        rcases Nat.lt_or_ge (j + 1) k with h | h
        · exact hlb h
        · have : k = j + 1 := by omega
          subst this
          exact hlt
    · refine ⟨j, Nat.le_refl _, ?_, by omega, by omega⟩
      simp only [sizeLoop, hlt, if_false]
      have : geomSum N G (j + 1) - N * G ^ j = geomSum N G j := by
        simp [geomSum]
      rw [this]

theorem sizeLoop_fromVec (N G length : Nat) (hN : 1 ≤ N) (hG : 1 ≤ G) :
    ∃ k, sizeLoop G length length N N = (N * G ^ k, geomSum N G k) ∧
      length ≤ geomSum N G (k + 1) ∧ (0 < length → geomSum N G k < length) := by
  have hinit1 : N * G ^ 0 = N := by simp
  have hinit2 : geomSum N G 1 = N := by simp [geomSum]
  obtain ⟨k, hk0, heq, hub, hlb⟩ :=
    sizeLoop_spec N G length hN hG length 0 (by omega)
  rw [hinit1, hinit2] at heq
  refine ⟨k, heq, hub, ?_⟩
  intro hpos
  rcases Nat.eq_zero_or_pos k with h | h
  · subst h
    simpa [geomSum] using hpos
  · exact hlb h

theorem chunks_tail (N G : Nat) (hN : 1 ≤ N) (hG : 1 ≤ G) :
    ∀ (j : Nat) (l : List α) (rs fuel : Nat),
      l.length = geomSum N G j → l.length ≤ rs → l.length + 1 ≤ fuel →
      chunks G rs fuel l (N * G ^ j / G) = tailChunks N G j l := by
  intro j
  induction j with
  | zero =>
    intro l rs fuel hlen _ hfuel
    have hl : l = [] := List.eq_nil_of_length_eq_zero (by simpa [geomSum] using hlen)
    subst hl
    obtain ⟨f, rfl⟩ : ∃ f, fuel = f + 1 := ⟨fuel - 1, by omega⟩
    simp [chunks, tailChunks]
  | succ j ih =>
    intro l rs fuel hlen hrs hfuel
    obtain ⟨f, rfl⟩ : ∃ f, fuel = f + 1 := ⟨fuel - 1, by omega⟩
    have hdiv : N * G ^ (j + 1) / G = N * G ^ j := by
      rw [pow_succ, ← Nat.mul_assoc]
      exact Nat.mul_div_cancel _ (by omega)
    have hpos : 1 ≤ N * G ^ j := one_le_mul_pow N G hN hG j
    have hlpos : l ≠ [] := by
      intro h
      subst h
      simp [geomSum] at hlen
      omega
    have hcs : chunkSize rs l.length (N * G ^ j) = N * G ^ j := by
      simp only [chunkSize]
      rw [if_neg (by omega)]
    have htne : (l.take (N * G ^ j)).isEmpty = false := by
      rw [List.isEmpty_eq_false]
      intro h
      rcases List.take_eq_nil_iff.mp h with h | h
      · omega
      · exact hlpos h
    rw [hdiv]
    simp only [chunks, hcs, htne, if_false, Bool.false_eq_true]
    have hdroplen : (l.drop (N * G ^ j)).length = geomSum N G j := by
      simp only [List.length_drop, hlen, geomSum]
      omega
    have ihapp := ih (l.drop (N * G ^ j)) rs f hdroplen
      (by rw [hdroplen]; calc geomSum N G j ≤ geomSum N G (j+1) := by simp [geomSum]
          _ = l.length := hlen.symm
          _ ≤ rs := hrs)
      (by rw [hdroplen]
          have : geomSum N G (j + 1) = geomSum N G j + N * G ^ j := by simp [geomSum]
          omega)
    rw [ihapp]
    rfl

theorem fromVec_nil (N G : Nat) : fromVec N G ([] : List α) = new α N := by
  simp [fromVec, sizeLoop, chunks, chunkSize]

theorem fromVec_chars (N G : Nat) (hN : 1 ≤ N) (hG : 1 ≤ G) (v : List α)
    (hv : v ≠ []) :
    ∃ k, geomSum N G k < v.length ∧ v.length ≤ geomSum N G (k + 1) ∧
      fromVec N G v =
        ((N * G ^ k, v.take (v.length - geomSum N G k)) ::
          tailChunks N G k (v.drop (v.length - geomSum N G k))).map mkCell := by
  have hvpos : 0 < v.length := List.length_pos.mpr hv
  obtain ⟨k, heq, hub, hlb⟩ := sizeLoop_fromVec N G v.length hN hG
  have hlbk := hlb hvpos
  have hch : chunks G (geomSum N G k) (v.length + 1) v (N * G ^ k) =
      (N * G ^ k, v.take (v.length - geomSum N G k)) ::
        tailChunks N G k (v.drop (v.length - geomSum N G k)) := by
    have hcs : chunkSize (geomSum N G k) v.length (N * G ^ k) =
        v.length - geomSum N G k := by
      simp only [chunkSize]
      rw [if_pos hlbk]
    have htne : (v.take (v.length - geomSum N G k)).isEmpty = false := by
      rw [List.isEmpty_eq_false]
      intro h
      rcases List.take_eq_nil_iff.mp h with h | h
      · omega
      · exact hv h
    simp only [chunks, hcs, htne, if_false, Bool.false_eq_true]
    have hdroplen : (v.drop (v.length - geomSum N G k)).length = geomSum N G k := by
      simp only [List.length_drop]
      omega
    rw [chunks_tail N G hN hG k _ _ _ hdroplen (by omega) (by omega)]
  rcases heqp : sizeLoop G v.length v.length N N with ⟨s, r⟩
  rw [heqp] at heq
  obtain ⟨hs, hr⟩ : s = N * G ^ k ∧ r = geomSum N G k := by
    constructor <;> [exact congrArg Prod.fst heq; exact congrArg Prod.snd heq]
  subst hs hr
  refine ⟨k, hlbk, hub, ?_⟩
  unfold fromVec
  rw [heqp]
  simp only
  rw [hch]
  simp only [List.map_cons]

/-! Consequences of the characterisation. -/

theorem joinChunks_tailChunks (N G : Nat) :
    ∀ (j : Nat) (l : List α),
      joinChunks (tailChunks N G j l) = l.take (geomSum N G j) := by
  intro j
  induction j with
  | zero => intro l; simp [tailChunks, joinChunks, geomSum]
  | succ j ih =>
    intro l
    simp only [tailChunks, joinChunks, ih]
    rw [geomSum_succ, Nat.add_comm, List.take_add]

theorem toList_map_mkCell :
    ∀ chs : List (Nat × List α), toList (chs.map mkCell) = joinChunks chs := by
  intro chs
  induction chs with
  | nil => rfl
  | cons c rest ih =>
    simp only [List.map_cons, toList, mkCell, joinChunks, ih]
    rw [List.take_of_length_le (by simp), List.reverse_reverse]

theorem tailChunks_length (N G : Nat) :
    ∀ (j : Nat) (l : List α), (tailChunks N G j l).length = j := by
  intro j
  induction j with
  | zero => intro l; rfl
  | succ j ih => intro l; simp [tailChunks, ih]

theorem tailChunks_snd_le (N G : Nat) :
    ∀ (j : Nat) (l : List α) (p : Nat × List α),
      p ∈ tailChunks N G j l → p.2.length ≤ p.1 := by
  intro j
  induction j with
  | zero => intro l p hp; simp [tailChunks] at hp
  | succ j ih =>
    intro l p hp
    rcases List.mem_cons.mp hp with hp | hp
    · subst hp
      simp [List.length_take]
    · exact ih _ p hp

theorem tailChunks_sizes (N G : Nat) :
    ∀ (j : Nat) (l : List α), (tailChunks N G j l).map Prod.fst = powList N G j := by
  intro j
  induction j with
  | zero => intro l; rfl
  | succ j ih => intro l; simp [tailChunks, powList, ih]

theorem powList_length (N G : Nat) : ∀ j, (powList N G j).length = j := by
  intro j
  induction j with
  | zero => rfl
  | succ j ih => simp [powList, ih]

theorem concat_getElem_length (l : List Nat) (x : Nat) :
    (l ++ [x])[l.length]? = some x :=
  List.getElem?_concat_length l x

theorem powList_reverse_get (N G : Nat) :
    ∀ (j i : Nat), i < j → (powList N G j).reverse[i]? = some (N * G ^ i) := by
  intro j
  induction j with
  | zero => intro i hi; omega
  | succ j ih =>
    intro i hi
    simp only [powList, List.reverse_cons]
    rcases Nat.lt_or_ge i j with h | h
    · rw [List.getElem?_append_left (by simp [powList_length]; omega)]
      exact ih i h
    · have hij : i = j := by omega
      subst hij
      have h := List.getElem?_concat_length ((powList N G i).reverse) (N * G ^ i)
      rwa [List.length_reverse, powList_length] at h

theorem toList_fromVec (N G : Nat) (hN : 1 ≤ N) (hG : 1 ≤ G) (v : List α) :
    toList (fromVec N G v) = v := by
  rcases eq_or_ne v [] with hv | hv
  · subst hv
    rw [fromVec_nil]
    rfl
  · obtain ⟨k, hlbk, hub, heq⟩ := fromVec_chars N G hN hG v hv
    rw [heq, toList_map_mkCell]
    simp only [joinChunks, joinChunks_tailChunks]
    have hdrop : (v.drop (v.length - geomSum N G k)).length ≤ geomSum N G k := by
      rw [List.length_drop]
      omega
    rw [List.take_of_length_le hdrop]
    exact List.take_append_drop _ v

theorem fromVec_cursor_eq (N G : Nat) (hN : 1 ≤ N) (hG : 1 ≤ G) (v : List α) :
    ∀ c ∈ fromVec N G v, c.index = c.elements.length := by
  rcases eq_or_ne v [] with hv | hv
  · subst hv
    rw [fromVec_nil]
    intro c hc
    simp only [new, List.mem_singleton] at hc
    subst hc
    rfl
  · obtain ⟨k, _, _, heq⟩ := fromVec_chars N G hN hG v hv
    rw [heq]
    intro c hc
    obtain ⟨sc, _, hsc⟩ := List.mem_map.mp hc
    subst hsc
    simp [mkCell]

theorem fromVec_len_le_size (N G : Nat) (hN : 1 ≤ N) (hG : 1 ≤ G) (v : List α) :
    ∀ c ∈ fromVec N G v, c.elements.length ≤ c.size := by
  rcases eq_or_ne v [] with hv | hv
  · subst hv
    rw [fromVec_nil]
    intro c hc
    simp only [new, List.mem_singleton] at hc
    subst hc
    exact Nat.zero_le N
  · obtain ⟨k, hlbk, hub, heq⟩ := fromVec_chars N G hN hG v hv
    rw [heq]
    intro c hc
    obtain ⟨sc, hmem, hsc⟩ := List.mem_map.mp hc
    subst hsc
    rcases List.mem_cons.mp hmem with h | h
    · subst h
      have h2 := geomSum_succ N G k
      simp only [mkCell, List.length_reverse, List.length_take]
      omega
    · have := tailChunks_snd_le N G k _ sc h
      simp only [mkCell, List.length_reverse]
      exact this

theorem fromVec_sizes (N G : Nat) (hN : 1 ≤ N) (hG : 1 ≤ G) (v : List α) :
    ∀ i < (fromVec N G v).length,
      ((fromVec N G v).map (fun c => c.size)).reverse[i]? = some (N * G ^ i) := by
  rcases eq_or_ne v [] with hv | hv
  · subst hv
    rw [fromVec_nil]
    intro i hi
    simp only [new, List.length_singleton] at hi
    have : i = 0 := by omega
    subst this
    simp [new]
  · obtain ⟨k, hlbk, hub, heq⟩ := fromVec_chars N G hN hG v hv
    rw [heq]
    intro i hi
    have hsz : (((N * G ^ k, v.take (v.length - geomSum N G k)) ::
        tailChunks N G k (v.drop (v.length - geomSum N G k))).map mkCell).map
          (fun c => c.size) = powList N G (k + 1) := by
      rw [List.map_map]
      have : ((fun c : UnrolledCell α => c.size) ∘ mkCell) =
          (Prod.fst : Nat × List α → Nat) := by
        funext sc
        rfl
      rw [this]
      simp only [List.map_cons, tailChunks_sizes]
      rfl
    rw [hsz]
    apply powList_reverse_get
    simp only [List.length_map, List.length_cons, tailChunks_length] at hi
    omega

theorem fromVec_head_nonempty (N G : Nat) (hN : 1 ≤ N) (hG : 1 ≤ G)
    (v : List α) (hv : v ≠ []) :
    ∃ c rest, fromVec N G v = c :: rest ∧ c.elements.isEmpty = false := by
  obtain ⟨k, hlbk, hub, heq⟩ := fromVec_chars N G hN hG v hv
  rw [heq]
  simp only [List.map_cons]
  refine ⟨_, _, rfl, ?_⟩
  simp only [mkCell, List.isEmpty_eq_false, ne_eq, List.reverse_eq_nil_iff]
  intro h
  rcases List.take_eq_nil_iff.mp h with h | h
  · omega
  · exact hv h

theorem len_fromVec (N G : Nat) (hN : 1 ≤ N) (hG : 1 ≤ G) (v : List α) :
    len (fromVec N G v) = v.length := by
  rw [len_eq_length_toList _
    (fun c hc => Nat.le_of_eq (fromVec_cursor_eq N G hN hG v c hc))]
  rw [toList_fromVec N G hN hG]

/-! Lemmas about `get`, `is_empty` and `append` on cursor-faithful chains
(cursor equal to the element count in every cell — true of every list built
by `from_vec` and never cursor-advanced). -/

theorem get_full_cursor (l : UnrolledList α)
    (h : ∀ c ∈ l, c.index = c.elements.length) :
    ∀ i, get l i = some ((toList l)[i]?) := by
  induction l with
  | nil => intro i; simp [get, toList]
  | cons c rest ih =>
    intro i
    have hc := h c (by simp)
    have hrest := fun x hx => h x (List.mem_cons_of_mem _ hx)
    simp only [get, toList]
    by_cases hi : i < c.index
    · rw [if_pos hi]
      have h1 : ((c.elements.take c.index).reverse ++ toList rest)[i]? =
          ((c.elements.take c.index).reverse)[i]? :=
        List.getElem?_append_left
          (by rw [List.length_reverse, List.length_take]; omega)
      rw [h1]
      have h2 : c.elements.take c.index = c.elements := by
        rw [hc]
        exact List.take_length _
      rw [h2]
      rw [List.getElem?_reverse (by omega)]
      have h3 : c.elements.length - 1 - i = c.index - i - 1 := by omega
      rw [h3]
    · rw [if_neg hi, if_neg (by omega), ih hrest]
      have h1 : ((c.elements.take c.index).reverse ++ toList rest)[i]? =
          (toList rest)[i - ((c.elements.take c.index).reverse).length]? :=
        List.getElem?_append_right
          (by rw [List.length_reverse, List.length_take]; omega)
      rw [h1]
      have h2 : i - ((c.elements.take c.index).reverse).length =
          i - c.elements.length := by
        rw [List.length_reverse, List.length_take]
        omega
      rw [h2]

theorem toList_append_fromVec (N G : Nat) (hN : 1 ≤ N) (hG : 1 ≤ G)
    (a b : List α) :
    toList (append N (fromVec N G a) (fromVec N G b)) = a ++ b := by
  rcases eq_or_ne b [] with hb | hb
  · subst hb
    rw [fromVec_nil]
    simp only [append, new, List.isEmpty_nil, if_true]
    simp [toList_fromVec N G hN hG]
  · obtain ⟨c, rest, heqb, hcne⟩ := fromVec_head_nonempty N G hN hG b hb
    rw [heqb]
    simp only [append]
    rw [if_neg (by simp [hcne])]
    rw [← heqb, toList_rebuild, toList_chain_append,
      toList_fromVec N G hN hG, toList_fromVec N G hN hG]

theorem len_append_fromVec (N G : Nat) (hN : 1 ≤ N) (hG : 1 ≤ G)
    (a b : List α) :
    len (append N (fromVec N G a) (fromVec N G b)) = a.length + b.length := by
  rcases eq_or_ne b [] with hb | hb
  · subst hb
    rw [fromVec_nil]
    simp only [append, new, List.isEmpty_nil, if_true]
    simp [len_fromVec N G hN hG]
  · obtain ⟨c, rest, heqb, hcne⟩ := fromVec_head_nonempty N G hN hG b hb
    rw [heqb]
    simp only [append]
    rw [if_neg (by simp [hcne])]
    rw [← heqb]
    rw [len_rebuild]
    · rw [len_chain_append, len_fromVec N G hN hG, len_fromVec N G hN hG]
    · intro x hx
      rcases List.mem_append.mp hx with hx | hx
      · exact Nat.le_of_eq (fromVec_cursor_eq N G hN hG a x hx)
      · exact Nat.le_of_eq (fromVec_cursor_eq N G hN hG b x hx)

/-! Claim theorems. -/

/-- C1: for every capacity `N ≥ 1` and growth factor `G ≥ 1`, building a
list from a vector `v` by the from-iterator/from-vector construction and
iterating it head-to-tail yields exactly `v`: `V(L(v)) = v`. -/
theorem claim_C1_fromVec_iteration (N G : Nat) (hN : 1 ≤ N) (hG : 1 ≤ G)
    (v : List α) : toList (fromVec N G v) = v :=
  toList_fromVec N G hN hG v

/-- Witness for C1 at `N = 2`, `G = 2`, `v = [1,2,3,4,5]`. -/
theorem claim_C1_witness :
    1 ≤ 2 ∧ toList (fromVec 2 2 [1, 2, 3, 4, 5]) = [1, 2, 3, 4, 5] :=
  ⟨by decide, claim_C1_fromVec_iteration 2 2 (by decide) (by decide) [1, 2, 3, 4, 5]⟩

/-- C2 (code bug): the trace `cdr; pop_front; pop_front` on `L([1,2])`
(with `N = 256`, `G = 1`) panics — the second `pop_front` pops a stale
hidden slot and decrements the cursor below zero — whereas the reference
vector semantics (the crate's own `operations_in_order_match` property)
reaches the empty vector without incident. -/
theorem claim_C2_trace_panics :
    runList 256 1 (fromVec 256 1 [1, 2])
        [Action.cdrA, Action.popFrontA, Action.popFrontA] = none ∧
    runVec [1, 2] [Action.cdrA, Action.popFrontA, Action.popFrontA] =
      ([] : List Nat) := by
  constructor
  · rfl
  · rfl

/-- C3 counterexample: `get` does panic on lists produced by `cdr`.  On
`cdr(L([1,2,3]))` (length 2) the query `get 2` must return the none
sentinel but instead underflows (`none` is the panic marker, the sentinel
would be `some none`); and on the cdr-then-append list
`append(cdr(L([1..6])), L([7..10]))` with `N = 4` (length 9, iterating to
`[2,…,10]`) the in-bounds query `get 1` also panics instead of returning
`some (some 3)`. -/
theorem claim_C3_counterexample :
    cdr (fromVec 256 1 [1, 2, 3]) = some [⟨2, [3, 2, 1], 256⟩] ∧
    len [(⟨2, [3, 2, 1], 256⟩ : UnrolledCell Nat)] = 2 ∧
    get [(⟨2, [3, 2, 1], 256⟩ : UnrolledCell Nat)] 2 = none ∧
    append 4 ((cdr (fromVec 4 1 [1, 2, 3, 4, 5, 6])).getD [])
        (fromVec 4 1 [7, 8, 9, 10]) =
      [⟨1, [2, 1], 4⟩, ⟨4, [6, 5, 4, 3], 4⟩, ⟨4, [10, 9, 8, 7], 4⟩] ∧
    len ([⟨1, [2, 1], 4⟩, ⟨4, [6, 5, 4, 3], 4⟩, ⟨4, [10, 9, 8, 7], 4⟩] :
      UnrolledList Nat) = 9 ∧
    toList ([⟨1, [2, 1], 4⟩, ⟨4, [6, 5, 4, 3], 4⟩, ⟨4, [10, 9, 8, 7], 4⟩] :
      UnrolledList Nat) = [2, 3, 4, 5, 6, 7, 8, 9, 10] ∧
    get ([⟨1, [2, 1], 4⟩, ⟨4, [6, 5, 4, 3], 4⟩, ⟨4, [10, 9, 8, 7], 4⟩] :
      UnrolledList Nat) 1 = none := by
  decide

/-- C3 as amended: on every list all of whose cells have cursor equal to
element count (in particular every list built by the from-iterator
construction and not cursor-advanced), `get i` returns the element at
logical position `i` when `i < len` and the none sentinel when `i ≥ len`,
and never panics. -/
theorem claim_C3_get_total (l : UnrolledList α)
    (h : ∀ c ∈ l, c.index = c.elements.length) (i : Nat) :
    get l i = some ((toList l)[i]?) :=
  get_full_cursor l h i

/-- Witness for C3 at `L([5,6,7])` with `N = 2`, `G = 1`, `i = 1`. -/
theorem claim_C3_witness :
    (∀ c ∈ fromVec 2 1 [5, 6, 7], c.index = c.elements.length) ∧
    get (fromVec 2 1 [5, 6, 7]) 1 = some ((toList (fromVec 2 1 [5, 6, 7]))[1]?) :=
  ⟨by decide, claim_C3_get_total (fromVec 2 1 [5, 6, 7]) (by decide) 1⟩

/-- C4 (code bug): on the cdr-produced list `cdr(L([1,2,3]))` — logically
`[2,3]`, with `car = some 2` — `pop_front` returns `some 1`, a hidden stale
slot, not the value `car` would have returned; the resulting state then
underflows the cursor on the next `pop_front` (`none` = panic).  On the
canonical empty list `pop_front` does return none and leaves it empty. -/
theorem claim_C4_popFront_stale :
    cdr (fromVec 256 1 [1, 2, 3]) = some [⟨2, [3, 2, 1], 256⟩] ∧
    car [(⟨2, [3, 2, 1], 256⟩ : UnrolledCell Nat)] = some 2 ∧
    popFront [(⟨2, [3, 2, 1], 256⟩ : UnrolledCell Nat)] =
      some (some 1, [⟨1, [3, 2], 256⟩]) ∧
    popFront [(⟨0, [2], 256⟩ : UnrolledCell Nat)] = none ∧
    popFront (new Nat 256) = some (none, new Nat 256) := by
  decide

/-- C5 (code bug): the functional `cons` on the cdr-produced list
`cdr(L([1,2,3]))` — logically `[2,3]` — pushes past the stale hidden slot
without truncating: `cons 99` yields a list whose `car` is `some 1` (not
`some 99`) and which iterates to `[1,2,3]` (not `[99,2,3]`), although the
length does grow by 1.  (`cons_mut` truncates first and is correct.) -/
theorem claim_C5_cons_stale :
    cdr (fromVec 256 1 [1, 2, 3]) = some [⟨2, [3, 2, 1], 256⟩] ∧
    cons 1 99 [(⟨2, [3, 2, 1], 256⟩ : UnrolledCell Nat)] =
      [⟨3, [3, 2, 1, 99], 256⟩] ∧
    car [(⟨3, [3, 2, 1, 99], 256⟩ : UnrolledCell Nat)] = some 1 ∧
    toList [(⟨3, [3, 2, 1, 99], 256⟩ : UnrolledCell Nat)] = [1, 2, 3] ∧
    len [(⟨3, [3, 2, 1, 99], 256⟩ : UnrolledCell Nat)] = 3 ∧
    consMut 1 99 [(⟨2, [3, 2, 1], 256⟩ : UnrolledCell Nat)] =
      [⟨3, [3, 2, 99], 256⟩] ∧
    car [(⟨3, [3, 2, 99], 256⟩ : UnrolledCell Nat)] = some 99 := by
  decide

/-- C6 counterexample: with `N = 1`, `G = 2` the bucket sizes of
`L([1,2,3])` are `[2, 1]` from the head, not `[N·G^0, N·G^1] = [1, 2]` —
the geometric progression runs from the tail, not the head; and with
`N = 2`, `G = 2` the append `L([1,2]) ++ L([3,4,5])` coalesces into a head
bucket holding 3 elements with `size = 2`, breaking
`elements.length ≤ size`, so the invariant does not survive every
operation. -/
theorem claim_C6_counterexample :
    (fromVec 1 2 ([1, 2, 3] : List Nat)).map (fun c => c.size) = [2, 1] ∧
    ¬ ((fromVec 1 2 ([1, 2, 3] : List Nat)).map (fun c => c.size) =
        [1 * 2 ^ 0, 1 * 2 ^ 1]) ∧
    append 2 (fromVec 2 2 [1, 2]) (fromVec 2 2 [3, 4, 5]) =
      [⟨3, [3, 2, 1], 2⟩, ⟨2, [5, 4], 2⟩] ∧
    ¬ (∀ c ∈ append 2 (fromVec 2 2 ([1, 2] : List Nat)) (fromVec 2 2 [3, 4, 5]),
        c.elements.length ≤ c.size) := by
  decide

/-- C6 as amended: after construction from a vector (`N ≥ 1`, `G ≥ 1`),
every bucket satisfies `cursor ≤ elements.length ≤ size`, and the size of
the bucket at depth `d` counted from the tail of the chain is `N·G^d`. -/
theorem claim_C6_construction_invariant (N G : Nat) (hN : 1 ≤ N) (hG : 1 ≤ G)
    (v : List α) :
    (∀ c ∈ fromVec N G v,
      c.index ≤ c.elements.length ∧ c.elements.length ≤ c.size) ∧
    ∀ i < (fromVec N G v).length,
      ((fromVec N G v).map (fun c => c.size)).reverse[i]? = some (N * G ^ i) :=
  ⟨fun c hc => ⟨Nat.le_of_eq (fromVec_cursor_eq N G hN hG v c hc),
    fromVec_len_le_size N G hN hG v c hc⟩, fromVec_sizes N G hN hG v⟩

/-- Witness for C6 at `N = 2`, `G = 2`, `v = [1,2,3,4,5]`. -/
theorem claim_C6_witness :
    1 ≤ 2 ∧
    ((∀ c ∈ fromVec 2 2 ([1, 2, 3, 4, 5] : List Nat),
        c.index ≤ c.elements.length ∧ c.elements.length ≤ c.size) ∧
      ∀ i < (fromVec 2 2 ([1, 2, 3, 4, 5] : List Nat)).length,
        ((fromVec 2 2 ([1, 2, 3, 4, 5] : List Nat)).map
            (fun c => c.size)).reverse[i]? = some (2 * 2 ^ i)) :=
  ⟨by decide,
    claim_C6_construction_invariant 2 2 (by decide) (by decide) [1, 2, 3, 4, 5]⟩

/-- C8: `append(L(a), L(b))` iterates to `a ++ b`, is observationally equal
to `L(a ++ b)`, and its length is `|a| + |b|`. -/
theorem claim_C8_append (N G : Nat) (hN : 1 ≤ N) (hG : 1 ≤ G)
    (a b : List α) :
    toList (append N (fromVec N G a) (fromVec N G b)) = a ++ b ∧
    toList (append N (fromVec N G a) (fromVec N G b)) =
      toList (fromVec N G (a ++ b)) ∧
    len (append N (fromVec N G a) (fromVec N G b)) = a.length + b.length := by
  refine ⟨toList_append_fromVec N G hN hG a b, ?_,
    len_append_fromVec N G hN hG a b⟩
  rw [toList_append_fromVec N G hN hG a b, toList_fromVec N G hN hG]

/-- Witness for C8 at `N = 2`, `G = 2`, `a = [1,2]`, `b = [3,4,5]`. -/
theorem claim_C8_witness :
    1 ≤ 2 ∧
    (toList (append 2 (fromVec 2 2 [1, 2]) (fromVec 2 2 [3, 4, 5])) =
        [1, 2] ++ [3, 4, 5] ∧
      toList (append 2 (fromVec 2 2 [1, 2]) (fromVec 2 2 [3, 4, 5])) =
        toList (fromVec 2 2 ([1, 2] ++ [3, 4, 5])) ∧
      len (append 2 (fromVec 2 2 ([1, 2] : List Nat)) (fromVec 2 2 [3, 4, 5])) =
        [1, 2].length + [3, 4, 5].length) :=
  ⟨by decide, claim_C8_append 2 2 (by decide) (by decide) [1, 2] [3, 4, 5]⟩

/-- C9: reversal is pointwise correct — `V(reverse(L(v))) = reverse(v)` —
and applying it twice to an untouched list gives a value observationally
equal to the original (observational equality is iterator equality, which
is how the source implements `PartialEq`). -/
theorem claim_C9_reverse (N G : Nat) (hN : 1 ≤ N) (hG : 1 ≤ G)
    (v : List α) :
    toList (reverse (fromVec N G v)) = v.reverse ∧
    toList (reverse (reverse (fromVec N G v))) = toList (fromVec N G v) := by
  constructor
  · rw [toList_reverse, toList_fromVec N G hN hG]
  · rw [toList_reverse, toList_reverse, List.reverse_reverse]

/-- Witness for C9 at `N = 2`, `G = 2`, `v = [1,2,3,4,5]`. -/
theorem claim_C9_witness :
    1 ≤ 2 ∧
    (toList (reverse (fromVec 2 2 [1, 2, 3, 4, 5])) = [1, 2, 3, 4, 5].reverse ∧
      toList (reverse (reverse (fromVec 2 2 ([1, 2, 3, 4, 5] : List Nat)))) =
        toList (fromVec 2 2 ([1, 2, 3, 4, 5] : List Nat))) :=
  ⟨by decide, claim_C9_reverse 2 2 (by decide) (by decide) [1, 2, 3, 4, 5]⟩

/-- C10 counterexample: the state reached from `L([1,2])` by `cdr` then
`pop_front` (reachable through the public operations) has `is_empty() =
false` while `len() = 0`: the head cell keeps one stale element with the
cursor at 0 and no successor. -/
theorem claim_C10_counterexample :
    cdr (fromVec 256 1 [1, 2]) = some [⟨1, [2, 1], 256⟩] ∧
    popFront [(⟨1, [2, 1], 256⟩ : UnrolledCell Nat)] =
      some (some 1, [⟨0, [2], 256⟩]) ∧
    isEmpty [(⟨0, [2], 256⟩ : UnrolledCell Nat)] = false ∧
    len [(⟨0, [2], 256⟩ : UnrolledCell Nat)] = 0 := by
  decide

/-- C10 as amended: `is_empty()` returns true exactly when `len()` is 0 on
every list state satisfying the spec's structural invariants — cursor at
most the element count in every cell, positive cursor in every
non-terminal cell, and a head cell with positive cursor or an empty
vector.  Freshly built lists and cdr-produced states (whose head cursor
stays positive) satisfy these; the excluded states are exactly those whose
terminal cell holds stale elements under a cursor at 0, which is what
`pop_front` leaves behind when the cursor lags the vector (the
counterexample). -/
theorem claim_C10_isEmpty_iff (c : UnrolledCell α) (rest : UnrolledList α)
    (h1 : ∀ x ∈ c :: rest, x.index ≤ x.elements.length)
    (h3 : ∀ x ∈ (c :: rest).dropLast, 0 < x.index)
    (h5 : 0 < c.index ∨ c.elements = []) :
    isEmpty (c :: rest) = true ↔ len (c :: rest) = 0 := by
  rcases hel : c.elements with _ | ⟨e, es⟩
  · have hc0 : c.index = 0 := by
      have := h1 c (by simp)
      rw [hel] at this
      simpa using this
    rcases rest with _ | ⟨d, rest2⟩
    · simp [isEmpty, len, hel, hc0]
    · have : 0 < c.index := h3 c (by simp [List.dropLast_cons₂])
      omega
  · have hcpos : 0 < c.index := by
      rcases h5 with h | h
      · exact h
      · rw [hel] at h
        cases h
    have hlen : c.index + len rest ≠ 0 := by omega
    simp only [isEmpty, hel, List.isEmpty_cons, len]
    constructor
    · intro h
      exact absurd h (by simp)
    · intro h
      exact absurd h hlen

/-- Witness for C10 at the cdr-produced singleton state
`cdr(L([1,2,3])) = [⟨2, [3,2,1], 256⟩]`, a state with cursor 2 strictly
below the element count 3 that the amended statement covers. -/
theorem claim_C10_witness :
    (∀ x ∈ [(⟨2, [3, 2, 1], 256⟩ : UnrolledCell Nat)],
      x.index ≤ x.elements.length) ∧
    (0 < (⟨2, [3, 2, 1], 256⟩ : UnrolledCell Nat).index ∨
      (⟨2, [3, 2, 1], 256⟩ : UnrolledCell Nat).elements = []) ∧
    (isEmpty [(⟨2, [3, 2, 1], 256⟩ : UnrolledCell Nat)] = true ↔
      len [(⟨2, [3, 2, 1], 256⟩ : UnrolledCell Nat)] = 0) :=
  ⟨by decide, by decide, claim_C10_isEmpty_iff ⟨2, [3, 2, 1], 256⟩ []
    (by decide) (by decide) (by decide)⟩

end Unrolled
